import Mathlib

/-!
# meta_balls: band dispatch of the frame loop and the thread pool

A shallow embedding of `src/main.cpp` (the per-frame band dispatch loop and
the band work item) and of `src/ThreadPool.h` (the task queue, `add_task`,
the worker loop and the destructor), with the properties of the
specification stated over these definitions.

Machine integers are natural numbers; `std::size_t` arithmetic is taken
modulo `SIZE_MOD = 2 ^ 64`, and the `int` quantities of the source
(`height`, `width`) are bounded by `INT_MAX` where a theorem needs it.
-/

namespace MetaBalls

/-! ## Part 1: `main.cpp`, the band dispatch -/

/-- Modulus of `std::size_t` arithmetic. -/
def SIZE_MOD : Nat := 2 ^ 64

/-- Largest value of an `int` (the type of `height`, `width` and `line_length`). -/
def INT_MAX : Nat := 2 ^ 31 - 1

/-- The statement `std::size_t offset = height / std::thread::hardware_concurrency();`
(main.cpp:85). Integer division of the non-negative `int` `height` by the
`unsigned` thread count; a divisor of zero is undefined behaviour and gives
`none`. -/
def offset (height hardware_concurrency : Nat) : Option Nat :=
  if hardware_concurrency = 0 then none else some (height / hardware_concurrency)

/-- The loop `for (std::size_t line_idx = 0; line_idx < height; line_idx += offset)`
of main.cpp:86-107, started at `line_idx`: the values of `line_idx` for which one
work item is submitted, in order. Every test of the loop condition uses one unit
of fuel; `none` when the fuel runs out before the loop ends. -/
def dispatch : Nat → Nat → Nat → Nat → Option (List Nat)
  | 0, _, _, _ => none
  | fuel + 1, height, offset, line_idx =>
    if line_idx < height then
      (dispatch fuel height offset ((line_idx + offset) % SIZE_MOD)).map (line_idx :: ·)
    else some []

/-- Rows visited by one band work item, `line_idx + y` for `y = 0 .. offset - 1`
(main.cpp:89 with the row expression of main.cpp:93-100). -/
def band_rows (line_idx offset : Nat) : List Nat :=
  (List.range offset).map fun y => (line_idx + y) % SIZE_MOD

/-- The body of the band work item (main.cpp:88-105): the indices of `pixels`
it assigns, in order. `lit x row` stands for the floating-point test
`s >= 0.005` of main.cpp:99 at pixel `(x, row)`, which is not modelled. -/
def band_writes (lit : Nat → Nat → Bool) (line_idx line_length offset : Nat) : List Nat :=
  (List.range offset).flatMap fun y =>
    ((List.range line_length).filter fun x => lit x ((line_idx + y) % SIZE_MOD)).map
      fun x => (((line_idx + y) % SIZE_MOD) * line_length % SIZE_MOD + x) % SIZE_MOD

/-- The bands of one frame: `offset` as computed in main.cpp:85 and the band
starts produced by the loop of main.cpp:86 from `line_idx = 0`. -/
def frame_bands (fuel height hardware_concurrency : Nat) : Option (Nat × List Nat) :=
  match offset height hardware_concurrency with
  | none => none
  | some o =>
    match dispatch fuel height o 0 with
    | none => none
    | some starts => some (o, starts)

/-- The band height of the specification, `ceil(total_rows / worker_count)`,
written from the words of the specification (not from the source). -/
def spec_band_height (total_rows worker_count : Nat) : Nat :=
  (total_rows + worker_count - 1) / worker_count

/-! ## Part 2: `main.cpp`, the frame loop -/

/-- The observable actions of the frame loop, in program order. -/
inductive FrameEvent where
  /-- The call `screen.poll_events()` returned `event` (main.cpp:81). -/
  | poll_events (event : Int)
  /-- The call `std::fill(pixels.begin(), pixels.end(), background_color)` (main.cpp:84). -/
  | fill
  /-- The call of `pool.add_task` with the band work item capturing `line_idx` and `offset`
  (main.cpp:87-106). -/
  | add_task (line_idx offset : Nat)
  /-- The call `result.get()` on the `k`-th future of `results` (main.cpp:109-111). -/
  | get (k : Nat)
  /-- The call `screen.update_texture(pixels)` (main.cpp:112). -/
  | update_texture
  /-- The call `spin_ball(ball2, width, height)` (main.cpp:113). -/
  | spin_ball
  deriving DecidableEq

/-- The actions of one pass through the body of the frame loop when the poll
returns `event`, for the stride `o` and the band starts `starts`: the poll, the
fill, one `add_task` per band in row order, one `get` per collected future in
the same order, the presentation of the frame and the spin of the ball. -/
def frame_events (o : Nat) (starts : List Nat) (event : Int) : List FrameEvent :=
  [FrameEvent.poll_events event, FrameEvent.fill]
    ++ starts.map (fun line_idx => FrameEvent.add_task line_idx o)
    ++ (List.range starts.length).map FrameEvent.get
    ++ [FrameEvent.update_texture, FrameEvent.spin_ball]

/-- One execution of the body of `while (is_running)` (main.cpp:80-120), entered
with `is_running = true`, when `poll_events` returns `event`: the new value of
`is_running` and the actions performed. `none` when the band dispatch is
undefined or does not end within `fuel`. -/
def frame_body (fuel height hardware_concurrency : Nat) (event : Int) :
    Option (Bool × List FrameEvent) :=
  let is_running := if event = 1 then false else true
  match frame_bands fuel height hardware_concurrency with
  | none => none
  | some (o, starts) => some (is_running, frame_events o starts event)

/-- The loop `while (is_running)` of main.cpp:79-121, with `is_running`
initially true. The list holds the successive values that
`int event = screen.poll_events()` receives: 1 is the value returned on a quit
event, any other value stands for what the caller observes when
`poll_events` leaves its loop without a `return` (Screen.h:50-67). The result
is the sequence of actions up to the end of the loop, `none` when the loop is
still running after the last listed poll result or a frame does not
complete. -/
def frame_loop (fuel height hardware_concurrency : Nat) : List Int → Option (List FrameEvent)
  | [] => none
  | event :: rest =>
    match frame_body fuel height hardware_concurrency event with
    | none => none
    | some (is_running, evs) =>
      if is_running then
        (frame_loop fuel height hardware_concurrency rest).map (evs ++ ·)
      else some evs

/-! ## Part 3: `ThreadPool.h` -/

/-- A queued closure `[task]() { (*task)(); }` (ThreadPool.h:87). It owns the
packaged task made in ThreadPool.h:76-78: `future` identifies the shared state
of the `std::future` returned to the submitter, and `f` is what invoking the
bound callable produces, a value or a raised failure. -/
structure Task (ε ρ : Type) where
  future : Nat
  f : Except ε ρ

/-- Where a worker thread is in its loop (ThreadPool.h:38-52). -/
inductive Worker (ε ρ : Type) where
  /-- At the head of `for (;;)`, before or inside `condition_variable.wait`. -/
  | waiting
  /-- Past the critical section, inside `task()` (ThreadPool.h:51). -/
  | running (task : Task ε ρ)
  /-- Returned from the thread function (ThreadPool.h:46). -/
  | exited

/-- State of the pool: the members `workers`, `tasks` (front of the queue at
the head of the list) and `stop`; the shared states of the futures handed out
so far (`none`: not ready); and three history variables recording the closures
enqueued, dequeued and run to completion, in order. -/
structure ThreadPool (ε ρ : Type) where
  workers : List (Worker ε ρ)
  tasks : List (Task ε ρ)
  stop : Bool
  futures : List (Option (Except ε ρ))
  submitted : List (Task ε ρ)
  dequeued : List (Task ε ρ)
  executed : List (Task ε ρ)

/-- The constructor (ThreadPool.h:31-56): `stop(false)`, an empty queue and
`number_of_threads` workers, each at the head of its loop. -/
def ThreadPool.init (ε ρ : Type) (number_of_threads : Nat) : ThreadPool ε ρ :=
  { workers := List.replicate number_of_threads Worker.waiting
    tasks := []
    stop := false
    futures := []
    submitted := []
    dequeued := []
    executed := [] }

/-- The member `ThreadPool::add_task` (ThreadPool.h:70-91) applied to a callable whose
invocation produces `f`: the pool afterwards, and either the raised error or the
returned future. The packaged task and its future are created first
(ThreadPool.h:76-80); under the lock, `stop` set means `throw` and nothing else
(the packaged task and the future just made are destroyed with the frame of
the call), otherwise the closure is put at the back of `tasks`. -/
def add_task {ε ρ : Type} (p : ThreadPool ε ρ) (f : Except ε ρ) :
    ThreadPool ε ρ × Except String Nat :=
  let task : Task ε ρ := { future := p.futures.length, f := f }
  if p.stop then
    (p, Except.error "Adding tasks after `stop` is not allowed.")
  else
    ({ p with
        tasks := p.tasks ++ [task]
        futures := p.futures ++ [none]
        submitted := p.submitted ++ [task] },
      Except.ok task.future)

/-- One pass of worker `w` through its critical section (ThreadPool.h:40-50).
`none` while the predicate of `condition_variable.wait`,
`stop || !tasks.empty()`, is false (the worker stays blocked). Otherwise the
worker returns if `stop && tasks.empty()`, and else moves the front closure out
of the queue and pops it. -/
def worker_critical_section {ε ρ : Type} (p : ThreadPool ε ρ) (w : Nat) :
    Option (ThreadPool ε ρ) :=
  if p.stop || !p.tasks.isEmpty then
    if p.stop && p.tasks.isEmpty then
      some { p with workers := p.workers.set w Worker.exited }
    else
      match p.tasks with
      | [] => none
      | task :: rest =>
        some { p with
          workers := p.workers.set w (Worker.running task)
          tasks := rest
          dequeued := p.dequeued ++ [task] }
  else none

/-- Completion of `task()` in worker `w` (ThreadPool.h:51): invoking the
packaged task stores the outcome of the callable, value or failure, in the
shared state of its future (`std::packaged_task::operator()` does not let the
failure out), and the worker is back at the head of its loop. -/
def worker_task_done {ε ρ : Type} (p : ThreadPool ε ρ) (w : Nat) (task : Task ε ρ) :
    ThreadPool ε ρ :=
  { p with
    workers := p.workers.set w Worker.waiting
    futures := p.futures.set task.future (some task.f)
    executed := p.executed ++ [task] }

/-- The atomic steps of the pool: a call of `add_task`, the next step of
worker thread `w`, and the destructor setting `stop` (ThreadPool.h:60-63). -/
inductive Action (ε ρ : Type) where
  | add_task (f : Except ε ρ)
  | worker (w : Nat)
  | set_stop

/-- The step relation as a function: the state after the action, `none` when
the action is not enabled (a worker that is blocked or has exited, or a thread
index that does not exist). An `add_task` that raises leaves the state as
`add_task` leaves it. -/
def step {ε ρ : Type} (p : ThreadPool ε ρ) : Action ε ρ → Option (ThreadPool ε ρ)
  | Action.add_task f => some (add_task p f).1
  | Action.worker w =>
    match p.workers[w]? with
    | some Worker.waiting => worker_critical_section p w
    | some (Worker.running task) => some (worker_task_done p w task)
    | some Worker.exited => none
    | none => none
  | Action.set_stop => some { p with stop := true }

/-- A sequence of steps, `none` as soon as one of them is not enabled. -/
def run {ε ρ : Type} (p : ThreadPool ε ρ) : List (Action ε ρ) → Option (ThreadPool ε ρ)
  | [] => some p
  | a :: as =>
    match step p a with
    | none => none
    | some q => run q as

/-- The call `std::future::get` on the future `h`: `none` while the shared state is not
ready (the caller blocks), `some (Except.ok v)` when it returns `v`, and
`some (Except.error e)` when it re-raises the stored failure `e`. -/
def get {ε ρ : Type} (p : ThreadPool ε ρ) (h : Nat) : Option (Except ε ρ) :=
  match p.futures[h]? with
  | some r => r
  | none => none

/-- The closures that workers are currently running. -/
def inflight {ε ρ : Type} : List (Worker ε ρ) → List (Task ε ρ)
  | [] => []
  | Worker.running task :: ws => task :: inflight ws
  | _ :: ws => inflight ws

/-- The invariant of the pool that the proofs below maintain along every
sequence of steps from the constructed pool. -/
structure Inv {ε ρ : Type} (p : ThreadPool ε ρ) : Prop where
  /-- Everything submitted has been dequeued or is still queued, in order. -/
  queue : p.submitted = p.dequeued ++ p.tasks
  /-- What has been dequeued has run to completion or is being run. -/
  deq : (p.executed ++ inflight p.workers).Perm p.dequeued
  /-- With at most one worker the dequeued closures are run in dequeue order. -/
  single : p.workers.length ≤ 1 → p.dequeued = p.executed ++ inflight p.workers
  /-- One shared state per submitted closure. -/
  flen : p.futures.length = p.submitted.length
  /-- The closure submitted in position `i` owns the future `i`. -/
  ids : p.submitted.map (fun t => t.future) = List.range p.submitted.length
  /-- A closure that has run has stored its outcome in its future. -/
  done : ∀ t ∈ p.executed, p.futures[t.future]? = some (some t.f)
  /-- A future is ready only through the run of its closure. -/
  ready : ∀ i r, p.futures[i]? = some (some r) → ∃ t ∈ p.executed, t.future = i ∧ t.f = r
  /-- A worker has exited only if `stop` is set and the queue is empty. -/
  exit : Worker.exited ∈ p.workers → p.stop = true ∧ p.tasks = []

/-! ### Concrete runs used to instantiate the theorems -/

/-- Three submissions and a single worker that takes and runs them one after the
other, the second submission arriving while the first closure is running. -/
def fifo_actions : List (Action Nat Bool) :=
  [Action.add_task (Except.ok true), Action.worker 0, Action.add_task (Except.error 7),
   Action.add_task (Except.ok false), Action.worker 0, Action.worker 0, Action.worker 0,
   Action.worker 0, Action.worker 0]

/-- The state reached by `fifo_actions` from a pool of one worker. -/
def fifo_state : ThreadPool Nat Bool :=
  (run (ThreadPool.init Nat Bool 1) fifo_actions).getD (ThreadPool.init Nat Bool 1)

/-- Two workers, three submissions, one closure taken, then the destructor sets
`stop` while two closures are still queued. -/
def shutdown_actions_before : List (Action Nat Bool) :=
  [Action.add_task (Except.ok true), Action.add_task (Except.error 7),
   Action.add_task (Except.ok false), Action.worker 0, Action.set_stop]

/-- The workers drain the queue and exit. -/
def shutdown_actions_after : List (Action Nat Bool) :=
  [Action.worker 1, Action.worker 0, Action.worker 0, Action.worker 1, Action.worker 1,
   Action.worker 0, Action.worker 0]

/-- The state in which `stop` has just been set. -/
def shutdown_state_before : ThreadPool Nat Bool :=
  (run (ThreadPool.init Nat Bool 2) shutdown_actions_before).getD (ThreadPool.init Nat Bool 2)

/-- The state in which both workers have exited. -/
def shutdown_state_after : ThreadPool Nat Bool :=
  (run shutdown_state_before shutdown_actions_after).getD (ThreadPool.init Nat Bool 2)

/-! ### Lemmas on the dispatch loop -/

theorem dispatch_zero_offset (fuel height line_idx : Nat) (h : line_idx < height)
    (hl : line_idx < SIZE_MOD) : dispatch fuel height 0 line_idx = none := by
  induction fuel with
  | zero => rfl
  | succ fuel ih =>
    simp only [dispatch, h, if_true, Nat.add_zero, Nat.mod_eq_of_lt hl, ih, Option.map_none']

theorem dispatch_exact (o : Nat) (ho : 0 < o) :
    ∀ (k fuel l : Nat), l + k * o < SIZE_MOD → k < fuel →
      dispatch fuel (l + k * o) o l = some ((List.range k).map fun j => l + j * o) := by
  intro k
  induction k with
  | zero =>
    intro fuel l _ hf
    obtain ⟨f, rfl⟩ : ∃ f, fuel = f + 1 := ⟨fuel - 1, by omega⟩
    simp [dispatch]
  | succ k ih =>
    intro fuel l hb hf
    obtain ⟨f, rfl⟩ : ∃ f, fuel = f + 1 := ⟨fuel - 1, by omega⟩
    have hlt : l < l + (k + 1) * o := by
      have : 0 < (k + 1) * o := Nat.mul_pos (Nat.succ_pos k) ho
      omega
    have hsplit : l + (k + 1) * o = (l + o) + k * o := by ring
    have hmod : (l + o) % SIZE_MOD = l + o := by
      apply Nat.mod_eq_of_lt
      have : l + o ≤ l + (k + 1) * o := by rw [hsplit]; omega
      omega
    have hrec := ih f (l + o) (by rw [← hsplit]; exact hb) (by omega)
    rw [dispatch, if_pos hlt, hmod, hsplit, hrec]
    simp only [Option.map_some', List.range_succ_eq_map, List.map_cons, List.map_map]
    congr 2
    · simp
    · apply List.map_congr_left
      intro j _
      simp only [Function.comp, Nat.succ_eq_add_one]
      ring

/-- With a positive stride and no wrap-around the loop ends within
`height - line_idx + 1` tests of its condition. -/
theorem dispatch_terminates (height o : Nat) (ho : 0 < o) (hb : height + o ≤ SIZE_MOD) :
    ∀ (fuel l : Nat), height - l < fuel → (dispatch fuel height o l).isSome = true := by
  intro fuel
  induction fuel with
  | zero => intro l h; omega
  | succ f ih =>
    intro l h
    rw [dispatch]
    split
    · rename_i hlt
      have hmod : (l + o) % SIZE_MOD = l + o := Nat.mod_eq_of_lt (by omega)
      have := ih (l + o) (by omega)
      rw [hmod]
      cases hd : dispatch f height o (l + o) with
      | none => rw [hd] at this; simp at this
      | some v => simp
    · simp

/-- Shape of the result of the loop when it returns: the band starts are
`line_idx, line_idx + offset, ...`, all below `height`, and the first value
not dispatched is at or past `height`. -/
theorem dispatch_shape (height o : Nat) (hb : height + o ≤ SIZE_MOD) :
    ∀ (fuel l : Nat) (starts : List Nat), dispatch fuel height o l = some starts →
      starts = (List.range starts.length).map (fun j => l + j * o) ∧
      (∀ s ∈ starts, s < height) ∧ height ≤ l + starts.length * o := by
  intro fuel
  induction fuel with
  | zero => intro l starts h; simp [dispatch] at h
  | succ f ih =>
    intro l starts h
    rw [dispatch] at h
    split at h
    · rename_i hlt
      have hmod : (l + o) % SIZE_MOD = l + o := Nat.mod_eq_of_lt (by omega)
      rw [hmod] at h
      cases hd : dispatch f height o (l + o) with
      | none => rw [hd] at h; simp at h
      | some v =>
        rw [hd] at h
        simp only [Option.map_some', Option.some.injEq] at h
        obtain ⟨h1, h2, h3⟩ := ih (l + o) v hd
        subst h
        refine ⟨?_, ?_, ?_⟩
        · simp only [List.length_cons, List.range_succ_eq_map, List.map_cons, List.map_map]
          congr 1
          · simp
          · conv_lhs => rw [h1]
            apply List.map_congr_left
            intro j _
            simp only [Function.comp, Nat.succ_eq_add_one]
            ring
        · intro s hs
          rcases List.mem_cons.mp hs with rfl | hs
          · exact hlt
          · exact h2 s hs
        · simp only [List.length_cons]
          have : l + (v.length + 1) * o = l + o + v.length * o := by ring
          omega
    · rename_i hge
      simp only [Option.some.injEq] at h
      subst h
      simp
      omega

theorem band_rows_eq (l o : Nat) (h : l + o ≤ SIZE_MOD) :
    band_rows l o = (List.range o).map (l + ·) := by
  unfold band_rows
  apply List.map_congr_left
  intro y hy
  have := List.mem_range.mp hy
  exact Nat.mod_eq_of_lt (by omega)

theorem flatMap_band_rows (o : Nat) (N : Nat) (h : N * o ≤ SIZE_MOD) :
    ((List.range N).map (· * o)).flatMap (band_rows · o) = List.range (N * o) := by
  induction N with
  | zero => simp
  | succ n ih =>
    have hn : n * o + o ≤ SIZE_MOD := by
      have : (n + 1) * o = n * o + o := by ring
      omega
    rw [List.range_succ, List.map_append, List.flatMap_append, ih (by omega)]
    simp only [List.map_cons, List.map_nil, List.flatMap_cons, List.flatMap_nil, List.append_nil]
    rw [band_rows_eq _ _ hn]
    have : (n + 1) * o = n * o + o := by ring
    rw [this, List.range_add]

theorem mem_band_writes (lit : Nat → Nat → Bool) (l W o i : Nat) :
    i ∈ band_writes lit l W o ↔
      ∃ y, y < o ∧ ∃ x, x < W ∧ lit x ((l + y) % SIZE_MOD) = true ∧
        i = (((l + y) % SIZE_MOD) * W % SIZE_MOD + x) % SIZE_MOD := by
  unfold band_writes
  simp only [List.mem_flatMap, List.mem_map, List.mem_filter, List.mem_range]
  constructor
  · rintro ⟨y, hy, x, ⟨hx, hl⟩, rfl⟩
    exact ⟨y, hy, x, hx, hl, rfl⟩
  · rintro ⟨y, hy, x, hx, hl, rfl⟩
    exact ⟨y, hy, x, ⟨hx, hl⟩, rfl⟩

/-- No wrap-around in the index computation when the row and the row length are
`int` values. -/
theorem index_no_wrap (row W x : Nat) (hr : row ≤ 2 * INT_MAX) (hW : W ≤ INT_MAX) (hx : x < W) :
    ((row % SIZE_MOD) * W % SIZE_MOD + x) % SIZE_MOD = row * W + x := by
  have h1 : row * W ≤ (2 * INT_MAX) * INT_MAX := Nat.mul_le_mul hr hW
  have hI : INT_MAX = 2147483647 := by decide
  have hM : SIZE_MOD = 18446744073709551616 := by decide
  rw [hI] at h1 hr hW
  rw [hM]
  rw [Nat.mod_eq_of_lt (by omega : row < 18446744073709551616),
    Nat.mod_eq_of_lt (by omega : row * W < 18446744073709551616),
    Nat.mod_eq_of_lt (by omega)]

/-- When the rows of a list of bands, taken in order, are `0, ..., M - 1`, the
bands are pairwise disjoint and every row below `M` lies in exactly one band. -/
theorem partition_of_flatMap (starts : List Nat) (o M : Nat)
    (h : starts.flatMap (band_rows · o) = List.range M) :
    starts.Pairwise (fun a b => ∀ r, r ∈ band_rows a o → r ∉ band_rows b o) ∧
    (∀ r, r < M → ∃ l, l ∈ starts ∧ r ∈ band_rows l o ∧
      ∀ l2, l2 ∈ starts → r ∈ band_rows l2 o → l2 = l) := by
  have hnodup : (starts.flatMap (band_rows · o)).Nodup := by
    rw [h]; exact List.nodup_range M
  have hpair := (List.nodup_flatMap.mp hnodup).2
  constructor
  · refine hpair.imp ?_
    intro a b hab r hra hrb
    exact hab hra hrb
  · intro r hr
    have hmem : r ∈ starts.flatMap (band_rows · o) := by
      rw [h]; exact List.mem_range.mpr hr
    obtain ⟨l, hl, hrl⟩ := List.mem_flatMap.mp hmem
    refine ⟨l, hl, hrl, ?_⟩
    intro l2 hl2 hrl2
    by_contra hne
    have hsymm : Symmetric (fun a b : Nat => List.Disjoint (band_rows a o) (band_rows b o)) :=
      fun _ _ hd => hd.symm
    exact (List.Pairwise.forall hsymm hpair hl2 hl hne) hrl2 hrl

/-- What the dispatch does get right: for `1 <= N <= R` (`R` an `int`) the loop
ends, the bands it submits are pairwise disjoint and every row below `R` lies in
exactly one of them. Rows at or past `R` are not excluded from the last band. -/
theorem bands_cover_rows (R N : Nat) (hN : 1 ≤ N) (hNR : N ≤ R) (hRi : R ≤ INT_MAX) :
    ∀ fuel, R < fuel → ∃ starts,
      frame_bands fuel R N = some (R / N, starts) ∧
      starts.Pairwise (fun a b => ∀ r, r ∈ band_rows a (R / N) → r ∉ band_rows b (R / N)) ∧
      (∀ r, r < R → ∃ l, l ∈ starts ∧ r ∈ band_rows l (R / N) ∧
        ∀ l2, l2 ∈ starts → r ∈ band_rows l2 (R / N) → l2 = l) := by
  intro fuel hfuel
  have hI : INT_MAX = 2147483647 := by decide
  have hM : SIZE_MOD = 18446744073709551616 := by decide
  have hN0 : N ≠ 0 := by omega
  have ho : 0 < R / N := Nat.div_pos hNR (by omega)
  have hle : R / N ≤ R := Nat.div_le_self R N
  have hb : R + R / N ≤ SIZE_MOD := by omega
  have hsome := dispatch_terminates R (R / N) ho hb fuel 0 (by omega)
  cases hd : dispatch fuel R (R / N) 0 with
  | none => rw [hd] at hsome; simp at hsome
  | some starts =>
    obtain ⟨h1, h2, h3⟩ := dispatch_shape R (R / N) hb fuel 0 starts hd
    have hlen : starts.length * (R / N) < R + R / N := by
      rcases Nat.eq_zero_or_pos starts.length with h0 | hpos
      · rw [h0]; omega
      · have hlast : starts.length - 1 < starts.length := by omega
        have hmem : 0 + (starts.length - 1) * (R / N) ∈
            (List.range starts.length).map (fun j => 0 + j * (R / N)) :=
          List.mem_map.mpr ⟨starts.length - 1, List.mem_range.mpr hlast, rfl⟩
        rw [← h1] at hmem
        have hlt := h2 _ hmem
        have : starts.length * (R / N) = (starts.length - 1) * (R / N) + R / N := by
          conv_lhs => rw [show starts.length = (starts.length - 1) + 1 by omega]
          ring
        omega
    have hflat : starts.flatMap (band_rows · (R / N)) = List.range (starts.length * (R / N)) := by
      have := flatMap_band_rows (R / N) starts.length (by omega)
      have hs : starts = (List.range starts.length).map (· * (R / N)) := by
        conv_lhs => rw [h1]
        apply List.map_congr_left
        intro j _
        simp
      rw [← hs] at this
      exact this
    obtain ⟨hp, hc⟩ := partition_of_flatMap starts (R / N) _ hflat
    refine ⟨starts, by simp [frame_bands, offset, hN0, hd], hp, ?_⟩
    intro r hr
    exact hc r (by omega)

/-! ### The claims on the band dispatch -/

/-- C10: when the worker count `N` divides the row count `R` (both at least 1,
`R` and the row length `W` being `int` values), the frame loop computes
`offset = R / N`, its dispatch loop ends and submits exactly `N` work items
with band starts `0, offset, 2 * offset, ...`; the rows of the bands, taken in
order, are exactly `0, 1, ..., R - 1` (each row once), the bands are pairwise
disjoint, every row below `R` lies in exactly one band, and every pixel index
a work item writes is below `W * R`. -/
theorem divisible_rows_partition (R N W : Nat) (hR : 1 ≤ R) (hN : 1 ≤ N) (hdvd : N ∣ R)
    (hRi : R ≤ INT_MAX) (hWi : W ≤ INT_MAX) :
    ∀ fuel, N < fuel → ∃ starts,
      frame_bands fuel R N = some (R / N, starts) ∧
      starts = (List.range N).map (· * (R / N)) ∧
      starts.length = N ∧
      starts.flatMap (band_rows · (R / N)) = List.range R ∧
      starts.Pairwise (fun a b => ∀ r, r ∈ band_rows a (R / N) → r ∉ band_rows b (R / N)) ∧
      (∀ r, r < R → ∃ l, l ∈ starts ∧ r ∈ band_rows l (R / N) ∧
        ∀ l2, l2 ∈ starts → r ∈ band_rows l2 (R / N) → l2 = l) ∧
      ∀ (lit : Nat → Nat → Bool) (l : Nat), l ∈ starts →
        ∀ i, i ∈ band_writes lit l W (R / N) → i < W * R := by
  intro fuel hfuel
  have hI : INT_MAX = 2147483647 := by decide
  have hM : SIZE_MOD = 18446744073709551616 := by decide
  have hNo : N * (R / N) = R := Nat.mul_div_cancel' hdvd
  have ho : 0 < R / N := by
    rcases Nat.eq_zero_or_pos (R / N) with h0 | hpos
    · rw [h0] at hNo; omega
    · exact hpos
  have hN0 : N ≠ 0 := by omega
  have hRM : R < SIZE_MOD := by omega
  have hflat : ((List.range N).map (· * (R / N))).flatMap (band_rows · (R / N)) = List.range R := by
    have := flatMap_band_rows (R / N) N (by rw [hNo]; omega)
    rw [hNo] at this
    exact this
  have hdisp : dispatch fuel R (R / N) 0 = some ((List.range N).map (· * (R / N))) := by
    have := dispatch_exact (R / N) ho N fuel 0 (by rw [Nat.zero_add, Nat.mul_comm] at *; omega) hfuel
    rw [Nat.zero_add, hNo] at this
    rw [this]
    congr 1
    apply List.map_congr_left
    intro j _
    simp
  obtain ⟨hpair, hcover⟩ := partition_of_flatMap _ (R / N) R hflat
  refine ⟨(List.range N).map (· * (R / N)), ?_, rfl, by simp, hflat, hpair, hcover, ?_⟩
  · simp [frame_bands, offset, hN0, hdisp]
  · intro lit l hl i hi
    obtain ⟨k, hk, rfl⟩ := List.mem_map.mp hl
    have hk := List.mem_range.mp hk
    obtain ⟨y, hy, x, hx, _, rfl⟩ := (mem_band_writes lit _ W _ i).mp hi
    have hrow : k * (R / N) + y < R := by
      have : (k + 1) * (R / N) ≤ N * (R / N) := Nat.mul_le_mul_right _ hk
      have h2 : (k + 1) * (R / N) = k * (R / N) + R / N := by ring
      omega
    rw [index_no_wrap _ W x (by omega) hWi hx]
    have : (k * (R / N) + y + 1) * W ≤ R * W := Nat.mul_le_mul_right _ hrow
    have h3 : (k * (R / N) + y + 1) * W = (k * (R / N) + y) * W + W := by ring
    rw [Nat.mul_comm W R]
    omega

theorem divisible_rows_partition_witness :
    ∃ starts, frame_bands 5 900 4 = some (900 / 4, starts) ∧ starts.length = 4 ∧
      starts.flatMap (band_rows · (900 / 4)) = List.range 900 ∧
      ∀ (lit : Nat → Nat → Bool) (l : Nat), l ∈ starts →
        ∀ i, i ∈ band_writes lit l 1600 (900 / 4) → i < 1600 * 900 := by
  obtain ⟨starts, h1, _, h3, h4, _, _, h7⟩ :=
    divisible_rows_partition 900 4 1600 (by decide) (by decide) (by decide) (by decide)
      (by decide) 5 (by decide)
  exact ⟨starts, h1, h3, h4, h7⟩

/-- C1: the code at `height = 900`, `hardware_concurrency() = 8` (and at the
scenario of the specification, 90 rows and 4 workers). The stride is 112 and
nine bands are dispatched; the band that starts at row 896 runs over rows
896 .. 1007, so it contains row 900, which is not a row of the frame, and the
rows of the bands are not `0 .. 899`. Likewise 90 rows and 4 workers give five
bands of 22 rows and the band starting at 88 contains row 90. -/
theorem bands_overrun_rows :
    frame_bands 10 900 8 = some (112, [0, 112, 224, 336, 448, 560, 672, 784, 896]) ∧
    900 ∈ band_rows 896 112 ∧
    [0, 112, 224, 336, 448, 560, 672, 784, 896].flatMap (band_rows · 112) ≠ List.range 900 ∧
    frame_bands 6 90 4 = some (22, [0, 22, 44, 66, 88]) ∧
    90 ∈ band_rows 88 22 := by
  refine ⟨by decide, ?_, ?_, by decide, ?_⟩
  · rw [band_rows_eq _ _ (by decide)]
    exact List.mem_map.mpr ⟨4, List.mem_range.mpr (by omega), rfl⟩
  · intro h
    have hlen := congrArg List.length h
    simp [band_rows] at hlen
  · rw [band_rows_eq _ _ (by decide)]
    exact List.mem_map.mpr ⟨2, List.mem_range.mpr (by omega), rfl⟩

/-- The indices written by a band work item are all below `W * R` exactly when
the test of main.cpp:99 fails at every visited pixel whose row is at or past
`R` (no wrap-around: the band ends within twice the range of `int`). -/
theorem band_writes_below_iff (lit : Nat → Nat → Bool) (l W o R : Nat)
    (hl : l + o ≤ 2 * INT_MAX) (hW : W ≤ INT_MAX) :
    (∀ i, i ∈ band_writes lit l W o → i < W * R) ↔
      (∀ y, y < o → ∀ x, x < W → R ≤ l + y → lit x (l + y) = false) := by
  have hI : INT_MAX = 2147483647 := by decide
  have hM : SIZE_MOD = 18446744073709551616 := by decide
  have hrow : ∀ y, y < o → (l + y) % SIZE_MOD = l + y := fun y hy =>
    Nat.mod_eq_of_lt (by omega)
  constructor
  · intro h y hy x hx hR
    cases hlit : lit x (l + y) with
    | false => rfl
    | true =>
      have hmem : (l + y) * W + x ∈ band_writes lit l W o := by
        rw [mem_band_writes]
        refine ⟨y, hy, x, hx, by rw [hrow y hy]; exact hlit, ?_⟩
        rw [index_no_wrap _ W x (by omega) hW hx]
      have hlt := h _ hmem
      have hge : R * W ≤ (l + y) * W := Nat.mul_le_mul_right _ hR
      rw [Nat.mul_comm W R] at hlt
      omega
  · intro h i hi
    obtain ⟨y, hy, x, hx, hlit, rfl⟩ := (mem_band_writes lit l W o i).mp hi
    rw [hrow y hy] at hlit
    rw [index_no_wrap _ W x (by omega) hW hx]
    have hlt : l + y < R := by
      by_contra hge
      have := h y hy x hx (by omega)
      rw [this] at hlit
      simp at hlit
    have h1 : (l + y + 1) * W ≤ R * W := Nat.mul_le_mul_right _ hlt
    have h2 : (l + y + 1) * W = (l + y) * W + W := by ring
    rw [Nat.mul_comm W R]
    omega

/-- C3 (counterexample): for 90 rows and 4 workers the code computes the
stride 22, not `ceil(90 / 4) = 23`, and dispatches five bands starting at
0, 22, 44, 66, 88, not four. -/
theorem offset_not_ceil_90_4 :
    offset 90 4 = some 22 ∧ spec_band_height 90 4 = 23 ∧
    offset 90 4 ≠ some (spec_band_height 90 4) ∧
    frame_bands 6 90 4 = some (22, [0, 22, 44, 66, 88]) := by
  refine ⟨by decide, by decide, by decide, by decide⟩

/-- C3 (amended): for every row count `R` and worker count `N >= 1` the stride
`offset` of the frame loop is the integer quotient `R / N`, that is
`floor(R / N)`: `N * offset <= R < N * (offset + 1)`; whenever the dispatch
loop returns (for `R` an `int`), the `k`-th band starts at `k * (R / N)`, so
consecutive band starts differ by that stride. For `R = 90`, `N = 4` the stride
is 22 and the band starts are 0, 22, 44, 66, 88 (five bands). -/
theorem offset_is_floor (R N : Nat) (hN : 1 ≤ N) :
    offset R N = some (R / N) ∧
    N * (R / N) ≤ R ∧ R < N * (R / N + 1) ∧
    (∀ fuel o starts, R ≤ INT_MAX → frame_bands fuel R N = some (o, starts) →
      o = R / N ∧ starts = (List.range starts.length).map (fun k => k * (R / N))) ∧
    frame_bands 6 90 4 = some (22, [0, 22, 44, 66, 88]) := by
  have hN0 : N ≠ 0 := by omega
  refine ⟨by simp [offset, hN0], Nat.mul_div_le R N, Nat.lt_mul_div_succ R (by omega), ?_,
    by decide⟩
  intro fuel o starts hRi h
  have hI : INT_MAX = 2147483647 := by decide
  have hM : SIZE_MOD = 18446744073709551616 := by decide
  simp only [frame_bands, offset, hN0, if_false] at h
  cases hd : dispatch fuel R (R / N) 0 with
  | none => rw [hd] at h; simp at h
  | some v =>
    rw [hd] at h
    simp only [Option.some.injEq, Prod.mk.injEq] at h
    obtain ⟨rfl, rfl⟩ := h
    have hle : R / N ≤ R := Nat.div_le_self R N
    have := (dispatch_shape R (R / N) (by omega) fuel 0 v hd).1
    refine ⟨rfl, ?_⟩
    conv_lhs => rw [this]
    apply List.map_congr_left
    intro j _
    simp

theorem offset_is_floor_witness :
    offset 90 4 = some (90 / 4) ∧
    (22 = 90 / 4 ∧
      [0, 22, 44, 66, 88] = (List.range [0, 22, 44, 66, 88].length).map (fun k => k * (90 / 4))) :=
  ⟨(offset_is_floor 90 4 (by decide)).1,
    (offset_is_floor 90 4 (by decide)).2.2.2.1 6 22 [0, 22, 44, 66, 88] (by decide) (by decide)⟩

/-- C8: the code at 1 row and 2 workers (and at `height = 900` with 1024
hardware threads): the stride `offset` is 0, so a dispatched band has no rows,
`line_idx` never advances and the dispatch loop does not end, whatever the
fuel. -/
theorem dispatch_diverges_when_rows_lt_workers :
    offset 1 2 = some 0 ∧ (∀ fuel, frame_bands fuel 1 2 = none) ∧
    band_rows 0 0 = [] ∧
    offset 900 1024 = some 0 ∧ (∀ fuel, frame_bands fuel 900 1024 = none) := by
  refine ⟨by decide, ?_, by decide, by decide, ?_⟩
  · intro fuel
    have : dispatch fuel 1 0 0 = none := dispatch_zero_offset fuel 1 0 (by decide) (by decide)
    simp [frame_bands, offset, this]
  · intro fuel
    have : dispatch fuel 900 0 0 = none := dispatch_zero_offset fuel 900 0 (by decide) (by decide)
    simp [frame_bands, offset, this]

/-! ### The claim on the frame loop -/

/-- C7 (counterexample): with `height = 900` and 4 hardware threads, an
iteration whose poll returns 1 still submits the four band work items and
presents the frame. -/
theorem quit_iteration_still_dispatches :
    frame_loop 5 900 4 [1] = some
      [FrameEvent.poll_events 1, FrameEvent.fill,
       FrameEvent.add_task 0 225, FrameEvent.add_task 225 225,
       FrameEvent.add_task 450 225, FrameEvent.add_task 675 225,
       FrameEvent.get 0, FrameEvent.get 1, FrameEvent.get 2, FrameEvent.get 3,
       FrameEvent.update_texture, FrameEvent.spin_ball] ∧
    FrameEvent.add_task 0 225 ∈ frame_events 225 [0, 225, 450, 675] 1 ∧
    FrameEvent.update_texture ∈ frame_events 225 [0, 225, 450, 675] 1 := by
  refine ⟨by decide, by decide, by decide⟩

/-- C7 (amended): for a thread count `N` with `1 <= N <= height` (`height` an
`int`), so that the band dispatch of a frame ends, an iteration of the frame
loop whose poll returns 1 runs to its end and the loop stops there: the
actions from that poll on are the poll, the fill, the submission of that
frame's band work items (at least one), the wait on their futures, one
presentation of the frame and the spin, and nothing follows, whatever later
polls would return. -/
theorem quit_stops_after_current_frame (fuel height N : Nat) (rest : List Int)
    (hN : 1 ≤ N) (hNR : N ≤ height) (hH : height ≤ INT_MAX) (hfuel : height < fuel) :
    ∃ starts, frame_bands fuel height N = some (height / N, starts) ∧
      starts ≠ [] ∧
      frame_loop fuel height N (1 :: rest) =
        some ([FrameEvent.poll_events 1, FrameEvent.fill]
          ++ starts.map (fun line_idx => FrameEvent.add_task line_idx (height / N))
          ++ (List.range starts.length).map FrameEvent.get
          ++ [FrameEvent.update_texture, FrameEvent.spin_ball]) := by
  obtain ⟨starts, hb, _, hc⟩ := bands_cover_rows height N hN hNR hH fuel hfuel
  refine ⟨starts, hb, ?_, ?_⟩
  · obtain ⟨l, hl, _⟩ := hc 0 (by omega)
    exact List.ne_nil_of_mem hl
  · simp [frame_loop, frame_body, frame_events, hb]

theorem quit_stops_after_current_frame_witness :
    ∃ starts, frame_bands 901 900 8 = some (900 / 8, starts) ∧ starts ≠ [] ∧
      frame_loop 901 900 8 (1 :: [1, 1]) =
        some ([FrameEvent.poll_events 1, FrameEvent.fill]
          ++ starts.map (fun line_idx => FrameEvent.add_task line_idx (900 / 8))
          ++ (List.range starts.length).map FrameEvent.get
          ++ [FrameEvent.update_texture, FrameEvent.spin_ball]) :=
  quit_stops_after_current_frame 901 900 8 [1, 1] (by decide) (by decide) (by decide)
    (by decide)

/-! ### Lemmas on the pool -/

theorem inflight_replicate_waiting {ε ρ : Type} (n : Nat) :
    inflight (List.replicate n (Worker.waiting : Worker ε ρ)) = [] := by
  induction n with
  | zero => rfl
  | succ n ih => simpa [List.replicate_succ, inflight] using ih

theorem inflight_all_exited {ε ρ : Type} (ws : List (Worker ε ρ))
    (h : ∀ w ∈ ws, w = Worker.exited) : inflight ws = [] := by
  induction ws with
  | nil => rfl
  | cons w ws ih =>
    have hw := h w (List.mem_cons_self w ws)
    subst hw
    simpa [inflight] using ih (fun x hx => h x (List.mem_cons_of_mem _ hx))

theorem inflight_set_running {ε ρ : Type} (t : Task ε ρ) :
    ∀ (ws : List (Worker ε ρ)) (w : Nat), ws[w]? = some Worker.waiting →
      (inflight (ws.set w (Worker.running t))).Perm (t :: inflight ws) := by
  intro ws
  induction ws with
  | nil => intro w h; simp at h
  | cons x ws ih =>
    intro w h
    cases w with
    | zero =>
      simp only [List.getElem?_cons_zero, Option.some.injEq] at h
      subst h
      simp [inflight]
    | succ w =>
      simp only [List.getElem?_cons_succ] at h
      have := ih w h
      cases x with
      | waiting => simpa [inflight] using this
      | exited => simpa [inflight] using this
      | running u =>
        simp only [List.set_cons_succ, inflight]
        exact (List.Perm.cons u this).trans (List.Perm.swap t u _)

theorem inflight_set_waiting {ε ρ : Type} (t : Task ε ρ) :
    ∀ (ws : List (Worker ε ρ)) (w : Nat), ws[w]? = some (Worker.running t) →
      (t :: inflight (ws.set w Worker.waiting)).Perm (inflight ws) := by
  intro ws
  induction ws with
  | nil => intro w h; simp at h
  | cons x ws ih =>
    intro w h
    cases w with
    | zero =>
      simp only [List.getElem?_cons_zero, Option.some.injEq] at h
      subst h
      simp [inflight]
    | succ w =>
      simp only [List.getElem?_cons_succ] at h
      have := ih w h
      cases x with
      | waiting => simpa [inflight] using this
      | exited => simpa [inflight] using this
      | running u =>
        simp only [List.set_cons_succ, inflight]
        exact (List.Perm.swap u t _).trans (List.Perm.cons u this)

theorem inflight_set_exited {ε ρ : Type} :
    ∀ (ws : List (Worker ε ρ)) (w : Nat), ws[w]? = some Worker.waiting →
      inflight (ws.set w Worker.exited) = inflight ws := by
  intro ws
  induction ws with
  | nil => intro w h; simp at h
  | cons x ws ih =>
    intro w h
    cases w with
    | zero =>
      simp only [List.getElem?_cons_zero, Option.some.injEq] at h
      subst h
      simp [inflight]
    | succ w =>
      simp only [List.getElem?_cons_succ] at h
      have := ih w h
      cases x with
      | waiting => simpa [inflight] using this
      | exited => simpa [inflight] using this
      | running u => simp [inflight, this]

theorem Inv_init {ε ρ : Type} (n : Nat) : Inv (ThreadPool.init ε ρ n) where
  queue := rfl
  deq := by simp [ThreadPool.init, inflight_replicate_waiting]
  single := by intro _; simp [ThreadPool.init, inflight_replicate_waiting]
  flen := rfl
  ids := rfl
  done := by intro t ht; simp [ThreadPool.init] at ht
  ready := by intro i r h; simp [ThreadPool.init] at h
  exit := by
    intro h
    simp only [ThreadPool.init] at h
    exact absurd (List.eq_of_mem_replicate h) (by simp)

theorem Inv.executed_sub {ε ρ : Type} {p : ThreadPool ε ρ} (h : Inv p) {t : Task ε ρ}
    (ht : t ∈ p.executed) : t ∈ p.submitted := by
  rw [h.queue]
  exact List.mem_append_left _ (h.deq.subset (List.mem_append_left _ ht))

theorem Inv.inflight_sub {ε ρ : Type} {p : ThreadPool ε ρ} (h : Inv p) {t : Task ε ρ}
    (ht : t ∈ inflight p.workers) : t ∈ p.submitted := by
  rw [h.queue]
  exact List.mem_append_left _ (h.deq.subset (List.mem_append_right _ ht))

theorem Inv.future_lt {ε ρ : Type} {p : ThreadPool ε ρ} (h : Inv p) {t : Task ε ρ}
    (ht : t ∈ p.submitted) : t.future < p.futures.length := by
  have hm : t.future ∈ p.submitted.map (fun t => t.future) := List.mem_map_of_mem _ ht
  rw [h.ids, List.mem_range] at hm
  rw [h.flen]
  exact hm

theorem Inv.future_inj {ε ρ : Type} {p : ThreadPool ε ρ} (h : Inv p) {a b : Task ε ρ}
    (ha : a ∈ p.submitted) (hb : b ∈ p.submitted) (hab : a.future = b.future) : a = b := by
  have hnd : (p.submitted.map (fun t => t.future)).Nodup := by
    rw [h.ids]; exact List.nodup_range _
  exact List.inj_on_of_nodup_map hnd ha hb hab

theorem Inv.submitted_at {ε ρ : Type} {p : ThreadPool ε ρ} (h : Inv p) {i : Nat} {t : Task ε ρ}
    (ht : p.submitted[i]? = some t) : t.future = i := by
  have h1 : (p.submitted.map (fun t => t.future))[i]? = some t.future := by
    rw [List.getElem?_map, ht]; rfl
  rw [h.ids] at h1
  have hi : i < p.submitted.length := (List.getElem?_eq_some_iff.mp ht).1
  rw [List.getElem?_range hi] at h1
  exact (Option.some.inj h1).symm

theorem Inv_add_task {ε ρ : Type} {p : ThreadPool ε ρ} (h : Inv p) (f : Except ε ρ) :
    Inv (add_task p f).1 := by
  unfold add_task
  by_cases hs : p.stop = true
  · simpa [hs] using h
  · simp only [hs, Bool.false_eq_true, if_false]
    refine ⟨?_, h.deq, h.single, ?_, ?_, ?_, ?_, ?_⟩
    · simp [h.queue]
    · simp [h.flen]
    · simp [h.ids, h.flen, List.range_succ]
    · intro t ht
      have hlt := h.future_lt (h.executed_sub ht)
      have := h.done t ht
      simp only
      rw [List.getElem?_append_left hlt]
      exact this
    · intro i r hi
      simp only at hi
      by_cases hlt : i < p.futures.length
      · rw [List.getElem?_append_left hlt] at hi
        exact h.ready i r hi
      · rw [List.getElem?_append_right (by omega)] at hi
        rcases Nat.eq_zero_or_pos (i - p.futures.length) with h0 | hpos
        · rw [h0] at hi; simp at hi
        · rw [List.getElem?_eq_none (by simp only [List.length_singleton]; omega)] at hi
          simp at hi
    · intro hex
      exact absurd (h.exit hex).1 hs

theorem Inv_set_stop {ε ρ : Type} {p : ThreadPool ε ρ} (h : Inv p) :
    Inv { p with stop := true } :=
  ⟨h.queue, h.deq, h.single, h.flen, h.ids, h.done, h.ready,
    fun hex => ⟨rfl, (h.exit hex).2⟩⟩

theorem single_worker {ε ρ : Type} {ws : List (Worker ε ρ)} {w : Nat} {x : Worker ε ρ}
    (hw : ws[w]? = some x) (hl : ws.length ≤ 1) : w = 0 ∧ ws = [x] := by
  match ws, hl with
  | [], _ => simp at hw
  | [y], _ =>
    cases w with
    | zero => simp at hw; simp [hw]
    | succ w => simp at hw

theorem Inv_critical_section {ε ρ : Type} {p q : ThreadPool ε ρ} (h : Inv p) (w : Nat)
    (hw : p.workers[w]? = some Worker.waiting) (hq : worker_critical_section p w = some q) :
    Inv q := by
  unfold worker_critical_section at hq
  split at hq
  · split at hq
    · rename_i _ hse
      simp only [Bool.and_eq_true, List.isEmpty_iff] at hse
      simp only [Option.some.injEq] at hq
      subst hq
      refine ⟨h.queue, ?_, ?_, h.flen, h.ids, h.done, h.ready, fun _ => hse⟩
      · simp only [inflight_set_exited _ _ hw]; exact h.deq
      · intro hl
        simp only [inflight_set_exited _ _ hw]
        exact h.single (by simpa using hl)
    · rename_i _ hse
      cases ht : p.tasks with
      | nil => rw [ht] at hq; simp at hq
      | cons task rest =>
        rw [ht] at hq
        simp only [Option.some.injEq] at hq
        subst hq
        refine ⟨?_, ?_, ?_, h.flen, h.ids, h.done, h.ready, ?_⟩
        · simp [h.queue, ht]
        · simp only
          have h1 := inflight_set_running task _ _ hw
          have h2 : (p.executed ++ inflight (p.workers.set w (Worker.running task))).Perm
              (p.executed ++ (task :: inflight p.workers)) := List.Perm.append_left _ h1
          refine h2.trans ?_
          have h3 : (p.executed ++ task :: inflight p.workers).Perm
              (task :: (p.executed ++ inflight p.workers)) := List.perm_middle
          refine h3.trans ?_
          have h4 : (task :: (p.executed ++ inflight p.workers)).Perm (task :: p.dequeued) :=
            List.Perm.cons task h.deq
          refine h4.trans ?_
          exact (List.perm_append_singleton task p.dequeued).symm
        · intro hl
          have hl2 : p.workers.length ≤ 1 := by simpa using hl
          obtain ⟨rfl, hws⟩ := single_worker hw hl2
          have := h.single hl2
          rw [hws] at this
          simp only [inflight, List.append_nil] at this
          simp [hws, inflight, this]
        · intro hex
          simp only at hex
          rcases List.mem_or_eq_of_mem_set hex with hm | he
          · have := (h.exit hm).2
            rw [ht] at this
            simp at this
          · simp at he
  · simp at hq

theorem Inv_task_done {ε ρ : Type} {p : ThreadPool ε ρ} (h : Inv p) (w : Nat) (task : Task ε ρ)
    (hw : p.workers[w]? = some (Worker.running task)) : Inv (worker_task_done p w task) := by
  have hfl : task ∈ inflight p.workers :=
    (inflight_set_waiting task _ _ hw).subset (List.mem_cons_self _ _)
  have hsub : task ∈ p.submitted := h.inflight_sub hfl
  have hlt : task.future < p.futures.length := h.future_lt hsub
  unfold worker_task_done
  refine ⟨h.queue, ?_, ?_, ?_, h.ids, ?_, ?_, ?_⟩
  · simp only
    have h1 := inflight_set_waiting task _ _ hw
    have h2 : (p.executed ++ [task] ++ inflight (p.workers.set w Worker.waiting)).Perm
        (p.executed ++ inflight p.workers) := by
      rw [List.append_assoc]
      exact List.Perm.append_left _ h1
    exact h2.trans h.deq
  · intro hl
    have hl2 : p.workers.length ≤ 1 := by simpa using hl
    obtain ⟨rfl, hws⟩ := single_worker hw hl2
    have := h.single hl2
    rw [hws] at this
    simp only [inflight] at this
    simp [hws, inflight, this]
  · simp [h.flen]
  · intro t ht
    simp only at ht ⊢
    by_cases heq : t.future = task.future
    · have hts : t ∈ p.submitted := by
        rcases List.mem_append.mp ht with ht | ht
        · exact h.executed_sub ht
        · rw [List.mem_singleton.mp ht]; exact hsub
      have : t = task := h.future_inj hts hsub heq
      subst this
      simp [hlt]
    · rcases List.mem_append.mp ht with ht | ht
      · rw [List.getElem?_set_ne (fun hne => heq hne.symm)]
        exact h.done t ht
      · exact absurd (by rw [List.mem_singleton.mp ht]) heq
  · intro i r hi
    simp only at hi ⊢
    by_cases heq : task.future = i
    · subst heq
      rw [List.getElem?_set_self hlt] at hi
      simp only [Option.some.injEq] at hi
      exact ⟨task, by simp, rfl, hi⟩
    · rw [List.getElem?_set_ne heq] at hi
      obtain ⟨t, ht, h1, h2⟩ := h.ready i r hi
      exact ⟨t, List.mem_append_left _ ht, h1, h2⟩
  · intro hex
    simp only at hex ⊢
    rcases List.mem_or_eq_of_mem_set hex with hm | he
    · exact h.exit hm
    · simp at he

theorem step_worker_waiting {ε ρ : Type} {p : ThreadPool ε ρ} {w : Nat}
    (hw : p.workers[w]? = some Worker.waiting) :
    step p (Action.worker w) = worker_critical_section p w := by
  simp only [step, hw]

theorem step_worker_running {ε ρ : Type} {p : ThreadPool ε ρ} {w : Nat} {task : Task ε ρ}
    (hw : p.workers[w]? = some (Worker.running task)) :
    step p (Action.worker w) = some (worker_task_done p w task) := by
  simp only [step, hw]

theorem step_worker_exited {ε ρ : Type} {p : ThreadPool ε ρ} {w : Nat}
    (hw : p.workers[w]? = some Worker.exited) : step p (Action.worker w) = none := by
  simp only [step, hw]

theorem step_worker_none {ε ρ : Type} {p : ThreadPool ε ρ} {w : Nat}
    (hw : p.workers[w]? = none) : step p (Action.worker w) = none := by
  simp only [step, hw]

theorem Inv_step {ε ρ : Type} {p q : ThreadPool ε ρ} (h : Inv p) (a : Action ε ρ)
    (hq : step p a = some q) : Inv q := by
  cases a with
  | add_task f =>
    simp only [step, Option.some.injEq] at hq
    subst hq
    exact Inv_add_task h f
  | set_stop =>
    simp only [step, Option.some.injEq] at hq
    subst hq
    exact Inv_set_stop h
  | worker w =>
    cases hw : p.workers[w]? with
    | none => rw [step_worker_none hw] at hq; simp at hq
    | some x =>
      cases x with
      | waiting =>
        rw [step_worker_waiting hw] at hq
        exact Inv_critical_section h w hw hq
      | running task =>
        rw [step_worker_running hw, Option.some.injEq] at hq
        subst hq
        exact Inv_task_done h w task hw
      | exited => rw [step_worker_exited hw] at hq; simp at hq

theorem Inv_run {ε ρ : Type} (acts : List (Action ε ρ)) :
    ∀ {p q : ThreadPool ε ρ}, Inv p → run p acts = some q → Inv q := by
  induction acts with
  | nil =>
    intro p q h hq
    simp only [run, Option.some.injEq] at hq
    subst hq
    exact h
  | cons a acts ih =>
    intro p q h hq
    simp only [run] at hq
    cases hs : step p a with
    | none => rw [hs] at hq; simp at hq
    | some r =>
      rw [hs] at hq
      exact ih (Inv_step h a hs) hq

/-- Along a step the workers keep their number, `stop` stays set once set, the
log of executed closures only grows at its end, and while `stop` is set nothing
is submitted. -/
theorem step_frame {ε ρ : Type} {p q : ThreadPool ε ρ} (a : Action ε ρ)
    (hq : step p a = some q) :
    q.workers.length = p.workers.length ∧ (p.stop = true → q.stop = true) ∧
    (∃ l, q.executed = p.executed ++ l) ∧ (p.stop = true → q.submitted = p.submitted) := by
  cases a with
  | add_task f =>
    simp only [step, Option.some.injEq] at hq
    subst hq
    unfold add_task
    by_cases hs : p.stop = true
    · simp [hs]
    · simp only [hs, Bool.false_eq_true, if_false]
      exact ⟨trivial, fun h => absurd h (by simp), ⟨[], by simp⟩, fun h => absurd h (by simp)⟩
  | set_stop =>
    simp only [step, Option.some.injEq] at hq
    subst hq
    exact ⟨rfl, fun _ => rfl, ⟨[], by simp⟩, fun _ => rfl⟩
  | worker w =>
    cases hw : p.workers[w]? with
    | none => rw [step_worker_none hw] at hq; simp at hq
    | some x =>
      cases x with
      | waiting =>
        rw [step_worker_waiting hw] at hq
        unfold worker_critical_section at hq
        split at hq
        · split at hq
          · simp only [Option.some.injEq] at hq
            subst hq
            exact ⟨by simp, fun h => h, ⟨[], by simp⟩, fun _ => rfl⟩
          · cases ht : p.tasks with
            | nil => rw [ht] at hq; simp at hq
            | cons task rest =>
              rw [ht] at hq
              simp only [Option.some.injEq] at hq
              subst hq
              exact ⟨by simp, fun h => h, ⟨[], by simp⟩, fun _ => rfl⟩
        · simp at hq
      | running task =>
        rw [step_worker_running hw, Option.some.injEq] at hq
        subst hq
        exact ⟨by simp [worker_task_done], fun h => h, ⟨[task], rfl⟩, fun _ => rfl⟩
      | exited => rw [step_worker_exited hw] at hq; simp at hq

theorem run_frame {ε ρ : Type} (acts : List (Action ε ρ)) :
    ∀ {p q : ThreadPool ε ρ}, run p acts = some q →
      q.workers.length = p.workers.length ∧ (p.stop = true → q.stop = true) ∧
      (∃ l, q.executed = p.executed ++ l) ∧ (p.stop = true → q.submitted = p.submitted) := by
  induction acts with
  | nil =>
    intro p q hq
    simp only [run, Option.some.injEq] at hq
    subst hq
    exact ⟨rfl, fun h => h, ⟨[], by simp⟩, fun _ => rfl⟩
  | cons a acts ih =>
    intro p q hq
    simp only [run] at hq
    cases hs : step p a with
    | none => rw [hs] at hq; simp at hq
    | some r =>
      rw [hs] at hq
      obtain ⟨a1, a2, ⟨l1, a3⟩, a4⟩ := step_frame a hs
      obtain ⟨b1, b2, ⟨l2, b3⟩, b4⟩ := ih hq
      refine ⟨b1.trans a1, fun h => b2 (a2 h), ⟨l1 ++ l2, ?_⟩, fun h => ?_⟩
      · rw [b3, a3, List.append_assoc]
      · rw [b4 (a2 h), a4 h]

theorem run_append {ε ρ : Type} (as bs : List (Action ε ρ)) :
    ∀ p : ThreadPool ε ρ, run p (as ++ bs) = (run p as).bind (fun q => run q bs) := by
  induction as with
  | nil => intro p; rfl
  | cons a as ih =>
    intro p
    simp only [List.cons_append, run]
    cases step p a with
    | none => rfl
    | some r => exact ih r

/-- Submitting a list of callables to a pool whose `stop` is not set enqueues
one closure per callable, in order. -/
theorem run_add_tasks {ε ρ : Type} (fs : List (Except ε ρ)) :
    ∀ p : ThreadPool ε ρ, p.stop = false →
      ∃ q new, run p (fs.map Action.add_task) = some q ∧ new.map (fun t => t.f) = fs ∧
        q.tasks = p.tasks ++ new ∧ q.submitted = p.submitted ++ new ∧
        q.workers = p.workers ∧ q.executed = p.executed ∧ q.stop = false := by
  induction fs with
  | nil => intro p hs; exact ⟨p, [], rfl, rfl, by simp, by simp, rfl, rfl, hs⟩
  | cons f fs ih =>
    intro p hs
    have hstep : step p (Action.add_task f) = some (add_task p f).1 := rfl
    have hq : (add_task p f).1 =
        { p with
          tasks := p.tasks ++ [{ future := p.futures.length, f := f }]
          futures := p.futures ++ [none]
          submitted := p.submitted ++ [{ future := p.futures.length, f := f }] } := by
      simp [add_task, hs]
    obtain ⟨q, new, h1, h2, h3, h4, h5, h6, h7⟩ := ih (add_task p f).1 (by rw [hq]; exact hs)
    refine ⟨q, { future := p.futures.length, f := f } :: new, ?_, ?_, ?_, ?_, ?_, ?_, h7⟩
    · simp only [List.map_cons, run, hstep]; exact h1
    · simp [h2]
    · rw [h3, hq]; simp
    · rw [h4, hq]; simp
    · rw [h5, hq]
    · rw [h6, hq]

/-- A waiting worker 0 takes and runs the queued closures one after the other,
two steps for each, whatever their outcomes, until the queue is empty. -/
theorem run_worker_drains {ε ρ : Type} :
    ∀ (ts : List (Task ε ρ)) (p : ThreadPool ε ρ), p.workers[0]? = some Worker.waiting →
      p.tasks = ts →
      ∃ q, run p (List.replicate (2 * ts.length) (Action.worker 0)) = some q ∧
        q.tasks = [] ∧ q.executed = p.executed ++ ts ∧ q.submitted = p.submitted ∧
        q.workers[0]? = some Worker.waiting := by
  intro ts
  induction ts with
  | nil => intro p hw ht; exact ⟨p, rfl, ht, by simp, rfl, hw⟩
  | cons t rest ih =>
    intro p hw ht
    have hlt : 0 < p.workers.length := (List.getElem?_eq_some_iff.mp hw).1
    have h1 : step p (Action.worker 0) = some
        { p with
          workers := p.workers.set 0 (Worker.running t)
          tasks := rest
          dequeued := p.dequeued ++ [t] } := by
      rw [step_worker_waiting hw]
      simp [worker_critical_section, ht]
    have hw1 : (p.workers.set 0 (Worker.running t))[0]? = some (Worker.running t) := by
      simp [hlt]
    have h2 := step_worker_running (p := { p with
          workers := p.workers.set 0 (Worker.running t)
          tasks := rest
          dequeued := p.dequeued ++ [t] }) hw1
    obtain ⟨q, hq, hq1, hq2, hq3, hq4⟩ := ih (worker_task_done { p with
          workers := p.workers.set 0 (Worker.running t)
          tasks := rest
          dequeued := p.dequeued ++ [t] } 0 t) (by simp [worker_task_done, hlt]) rfl
    refine ⟨q, ?_, hq1, ?_, ?_, hq4⟩
    · have : 2 * (t :: rest).length = 2 * rest.length + 1 + 1 := by simp; ring
      rw [this, List.replicate_succ, List.replicate_succ]
      simp only [run, h1, h2]
      exact hq
    · rw [hq2]; simp [worker_task_done]
    · rw [hq3]; simp [worker_task_done]

theorem get_of_submitted {ε ρ : Type} {p : ThreadPool ε ρ} (h : Inv p) (i : Nat) (t : Task ε ρ)
    (ht : p.submitted[i]? = some t) :
    (t ∈ p.executed → get p i = some t.f) ∧ (t ∉ p.executed → get p i = none) := by
  have hti : t.future = i := h.submitted_at ht
  have hi : i < p.futures.length := by
    rw [h.flen]; exact (List.getElem?_eq_some_iff.mp ht).1
  have hmem : t ∈ p.submitted := List.getElem?_mem ht
  constructor
  · intro hex
    have := h.done t hex
    rw [hti] at this
    simp [get, this]
  · intro hnex
    cases hf : p.futures[i]? with
    | none => simp [get, hf]
    | some x =>
      cases x with
      | none => simp [get, hf]
      | some r =>
        obtain ⟨u, hu, hu1, _⟩ := h.ready i r hf
        have : u = t := h.future_inj (h.executed_sub hu) hmem (by rw [hu1, hti])
        exact absurd (this ▸ hu) hnex

/-! ### The claims on the pool -/

/-- C4: on the pool state, `add_task` raises an error if and only if `stop` is
set when it is called; when it raises, the pool (its task queue and its stop
flag in particular) is left as it was and nothing is enqueued; when `stop` is
not set it reports no error, returns the new future, puts the closure at the
back of the queue and leaves the stop flag as it was. -/
theorem add_task_raises_iff_stop {ε ρ : Type} (p : ThreadPool ε ρ) (f : Except ε ρ) :
    ((∃ msg, (add_task p f).2 = Except.error msg) ↔ p.stop = true) ∧
    (p.stop = true →
      (add_task p f).1 = p ∧ (add_task p f).1.tasks = p.tasks ∧
      (add_task p f).1.stop = p.stop) ∧
    (p.stop = false →
      (add_task p f).2 = Except.ok p.futures.length ∧
      (add_task p f).1.tasks = p.tasks ++ [{ future := p.futures.length, f := f }] ∧
      (add_task p f).1.stop = p.stop) := by
  unfold add_task
  by_cases hs : p.stop = true
  · simp [hs]
  · simp [hs]

theorem add_task_raises_iff_stop_witness :
    (add_task { ThreadPool.init Nat Bool 2 with stop := true } (Except.ok true)).1.tasks = [] ∧
    (add_task (ThreadPool.init Nat Bool 2) (Except.ok true)).2 = Except.ok 0 :=
  ⟨((add_task_raises_iff_stop { ThreadPool.init Nat Bool 2 with stop := true }
      (Except.ok true)).2.1 rfl).2.1,
   ((add_task_raises_iff_stop (ThreadPool.init Nat Bool 2) (Except.ok true)).2.2 rfl).1⟩

/-- C5: in every state reached from the constructed pool by any interleaving of
`add_task` calls, worker steps and the setting of `stop`, the closures
submitted so far are the closures dequeued so far followed by the queue, so the
dequeued sequence is an initial segment of the submitted sequence, in
submission order. With a single worker the executed sequence is an initial
segment of the dequeued and of the submitted sequence: closures submitted as
A, B, C and all executed have been executed in the order A, B, C. -/
theorem dequeue_order_is_submission_order {ε ρ : Type} (n : Nat) (acts : List (Action ε ρ))
    (p : ThreadPool ε ρ) (h : run (ThreadPool.init ε ρ n) acts = some p) :
    p.submitted = p.dequeued ++ p.tasks ∧
    p.dequeued <+: p.submitted ∧
    (n = 1 →
      p.executed <+: p.dequeued ∧ p.executed <+: p.submitted ∧
      ∀ A B C : Task ε ρ, p.submitted = [A, B, C] → p.executed.length = 3 →
        p.executed = [A, B, C]) := by
  have hinv : Inv p := Inv_run acts (Inv_init n) h
  have hlen : p.workers.length = n := by
    rw [(run_frame acts h).1]; simp [ThreadPool.init]
  refine ⟨hinv.queue, ⟨p.tasks, hinv.queue.symm⟩, ?_⟩
  intro hn
  have hsingle := hinv.single (by omega)
  have h1 : p.executed <+: p.dequeued := ⟨inflight p.workers, hsingle.symm⟩
  have h2 : p.executed <+: p.submitted := h1.trans ⟨p.tasks, hinv.queue.symm⟩
  refine ⟨h1, h2, ?_⟩
  intro A B C hsub hl
  rw [hsub] at h2
  have := List.IsPrefix.eq_of_length h2 (by simpa using hl)
  exact this

theorem dequeue_order_is_submission_order_witness :
    run (ThreadPool.init Nat Bool 1) fifo_actions = some fifo_state ∧
    fifo_state.dequeued <+: fifo_state.submitted ∧
    fifo_state.executed =
      [{ future := 0, f := Except.ok true }, { future := 1, f := Except.error 7 },
       { future := 2, f := Except.ok false }] :=
  ⟨rfl, (dequeue_order_is_submission_order 1 fifo_actions fifo_state rfl).2.1,
    (dequeue_order_is_submission_order 1 fifo_actions fifo_state rfl).2.2 rfl |>.2.2
      _ _ _ rfl rfl⟩

/-- C6: a worker step that ends in the worker having exited is taken only in a
state where `stop` is set and the queue is empty. Hence, for a pool constructed
with at least one worker: from any reached state in which `stop` is set, with
whatever is then queued, any further steps after which all workers have exited
leave the queue empty, and the closures executed since are exactly the closures
that were queued or being run when `stop` was observed, each once; everything
ever submitted has been executed exactly once. -/
theorem shutdown_drains_queue {ε ρ : Type} (n : Nat) (hn : 1 ≤ n)
    (acts1 acts2 : List (Action ε ρ)) (p1 p2 : ThreadPool ε ρ)
    (h1 : run (ThreadPool.init ε ρ n) acts1 = some p1) (hstop : p1.stop = true)
    (h2 : run p1 acts2 = some p2) (hall : ∀ w ∈ p2.workers, w = Worker.exited) :
    (∀ (p q : ThreadPool ε ρ) (w : Nat), step p (Action.worker w) = some q →
      q.workers[w]? = some Worker.exited → p.stop = true ∧ p.tasks = []) ∧
    p2.tasks = [] ∧
    (∃ l, p2.executed = p1.executed ++ l ∧ l.Perm (inflight p1.workers ++ p1.tasks)) ∧
    p2.executed.Perm p2.submitted := by
  have hinv1 : Inv p1 := Inv_run acts1 (Inv_init n) h1
  have hinv2 : Inv p2 := Inv_run acts2 hinv1 h2
  obtain ⟨hlen2, _, ⟨l, hl⟩, hsub⟩ := run_frame acts2 h2
  have hlen1 : p1.workers.length = n := by
    rw [(run_frame acts1 h1).1]; simp [ThreadPool.init]
  have hex : Worker.exited ∈ p2.workers := by
    cases hws : p2.workers with
    | nil => rw [hws] at hlen2; simp at hlen2; omega
    | cons x xs =>
      have := hall x (by rw [hws]; exact List.mem_cons_self x xs)
      rw [this]; exact List.mem_cons_self _ _
  have htasks : p2.tasks = [] := (hinv2.exit hex).2
  have hfl : inflight p2.workers = [] := inflight_all_exited _ hall
  have hperm2 : p2.executed.Perm p2.submitted := by
    have := hinv2.deq
    rw [hfl, List.append_nil] at this
    rw [hinv2.queue, htasks, List.append_nil]
    exact this
  refine ⟨?_, htasks, ⟨l, hl, ?_⟩, hperm2⟩
  · intro p q w hq hw
    cases hpw : p.workers[w]? with
    | none => rw [step_worker_none hpw] at hq; simp at hq
    | some x =>
      have hlt : w < p.workers.length := (List.getElem?_eq_some_iff.mp hpw).1
      cases x with
      | waiting =>
        rw [step_worker_waiting hpw] at hq
        unfold worker_critical_section at hq
        split at hq
        · split at hq
          · rename_i _ hse
            simpa using hse
          · cases ht : p.tasks with
            | nil => rw [ht] at hq; simp at hq
            | cons task rest =>
              rw [ht] at hq
              simp only [Option.some.injEq] at hq
              subst hq
              simp [hlt] at hw
        · simp at hq
      | running task =>
        rw [step_worker_running hpw, Option.some.injEq] at hq
        subst hq
        simp [worker_task_done, hlt] at hw
      | exited => rw [step_worker_exited hpw] at hq; simp at hq
  · have ha : (p1.executed ++ (inflight p1.workers ++ p1.tasks)).Perm p1.submitted := by
      rw [hinv1.queue, ← List.append_assoc]
      exact List.Perm.append_right _ hinv1.deq
    have hb : (p1.executed ++ l).Perm p1.submitted := by
      rw [← hl, ← hsub hstop]; exact hperm2
    exact (List.perm_append_left_iff _).mp (hb.trans ha.symm)

theorem shutdown_drains_queue_witness :
    run (ThreadPool.init Nat Bool 2) shutdown_actions_before = some shutdown_state_before ∧
    shutdown_state_before.tasks.length = 2 ∧
    run shutdown_state_before shutdown_actions_after = some shutdown_state_after ∧
    shutdown_state_after.tasks = [] ∧
    shutdown_state_after.executed.Perm shutdown_state_after.submitted :=
  have hall : ∀ w ∈ shutdown_state_after.workers, w = Worker.exited := by
    have hw : shutdown_state_after.workers = [Worker.exited, Worker.exited] := rfl
    intro w hmem
    rw [hw] at hmem
    simpa using hmem
  have h := shutdown_drains_queue 2 (by decide) shutdown_actions_before shutdown_actions_after
    shutdown_state_before shutdown_state_after rfl rfl rfl hall
  ⟨rfl, rfl, rfl, h.2.1, h.2.2.2⟩

/-- C9: a failure of a callable is stored in the future of its closure and
does not leave the worker loop. For a pool of at least one worker and every
list of callables, failing or not, submitted in order: worker 0 alone takes
and runs every closure, two steps for each, none of the steps is disabled, the
queue ends empty and every future holds the outcome of its own callable, so
`get` returns the value of an item that succeeded and re-raises the failure of
an item that failed. In every reachable state, under any interleaving: the
future of a submitted closure yields that closure's outcome once the closure
has been executed and is not ready before; a worker running a closure
completes it whatever its outcome, is then back at the head of its loop with
the queue untouched; and a waiting worker facing a non-empty queue takes the
front closure. -/
theorem failure_is_captured_in_handle {ε ρ : Type} (n : Nat) (hn : 1 ≤ n)
    (fs : List (Except ε ρ)) :
    (∃ q, run (ThreadPool.init ε ρ n)
        (fs.map Action.add_task ++ List.replicate (2 * fs.length) (Action.worker 0)) = some q ∧
      q.tasks = [] ∧ q.executed.map (fun t => t.f) = fs ∧
      ∀ i r, fs[i]? = some r → get q i = some r) ∧
    (∀ (acts : List (Action ε ρ)) (p : ThreadPool ε ρ),
      run (ThreadPool.init ε ρ n) acts = some p →
      (∀ i t, p.submitted[i]? = some t →
        (t ∈ p.executed → get p i = some t.f) ∧ (t ∉ p.executed → get p i = none)) ∧
      (∀ w t, p.workers[w]? = some (Worker.running t) →
        ∃ q, step p (Action.worker w) = some q ∧ q.workers[w]? = some Worker.waiting ∧
          q.tasks = p.tasks ∧ q.stop = p.stop ∧ q.executed = p.executed ++ [t] ∧
          get q t.future = some t.f) ∧
      (∀ w t rest, p.workers[w]? = some Worker.waiting → p.tasks = t :: rest →
        ∃ q, step p (Action.worker w) = some q ∧
          q.workers[w]? = some (Worker.running t) ∧ q.tasks = rest)) := by
  constructor
  · obtain ⟨q1, new, h1, h2, h3, h4, h5, h6, _⟩ :=
      run_add_tasks fs (ThreadPool.init ε ρ n) rfl
    have hw : q1.workers[0]? = some Worker.waiting := by
      rw [h5]
      obtain ⟨m, rfl⟩ : ∃ m, n = m + 1 := ⟨n - 1, by omega⟩
      simp [ThreadPool.init, List.replicate_succ]
    have hlen : fs.length = q1.tasks.length := by
      rw [h3, ← h2]; simp [ThreadPool.init]
    obtain ⟨q, hq, hq1, hq2, hq3, _⟩ := run_worker_drains q1.tasks q1 hw rfl
    have hrun : run (ThreadPool.init ε ρ n)
        (fs.map Action.add_task ++ List.replicate (2 * fs.length) (Action.worker 0)) = some q := by
      rw [run_append, h1, hlen]
      exact hq
    have hinv : Inv q := Inv_run _ (Inv_init n) hrun
    have hex : q.executed = new := by rw [hq2, h6, h3]; simp [ThreadPool.init]
    have hsub : q.submitted = new := by rw [hq3, h4]; simp [ThreadPool.init]
    refine ⟨q, hrun, hq1, by rw [hex, h2], ?_⟩
    intro i r hi
    rw [← h2, List.getElem?_map] at hi
    cases hn : new[i]? with
    | none => rw [hn] at hi; simp at hi
    | some t =>
      rw [hn] at hi
      simp only [Option.map_some', Option.some.injEq] at hi
      have := (get_of_submitted hinv i t (by rw [hsub]; exact hn)).1
        (by rw [hex]; exact List.getElem?_mem hn)
      rw [this, hi]
  · intro acts p hp
    have hinv : Inv p := Inv_run acts (Inv_init n) hp
    refine ⟨fun i t ht => get_of_submitted hinv i t ht, ?_, ?_⟩
    · intro w t hw
      have hlt : w < p.workers.length := (List.getElem?_eq_some_iff.mp hw).1
      have hinv2 := Inv_task_done hinv w t hw
      refine ⟨worker_task_done p w t, step_worker_running hw, by simp [worker_task_done, hlt],
        rfl, rfl, rfl, ?_⟩
      have := hinv2.done t (by simp [worker_task_done])
      simp [get, this]
    · intro w t rest hw ht
      have hlt : w < p.workers.length := (List.getElem?_eq_some_iff.mp hw).1
      refine ⟨{ p with
          workers := p.workers.set w (Worker.running t)
          tasks := rest
          dequeued := p.dequeued ++ [t] }, ?_, ?_, ?_⟩
      · rw [step_worker_waiting hw]
        simp [worker_critical_section, ht]
      · simp [hlt]
      · rfl

theorem failure_is_captured_in_handle_witness :
    (∃ q, run (ThreadPool.init Nat Bool 1)
        ([Except.ok true, Except.error 7, Except.ok true, Except.ok true].map Action.add_task
          ++ List.replicate (2 * 4) (Action.worker 0)) = some q ∧
      get q 0 = some (Except.ok true) ∧ get q 1 = some (Except.error 7) ∧
      get q 2 = some (Except.ok true) ∧ get q 3 = some (Except.ok true)) ∧
    (run (ThreadPool.init Nat Bool 2) shutdown_actions_before = some shutdown_state_before ∧
      get shutdown_state_before 0 = none) := by
  have h := failure_is_captured_in_handle 1 (by decide)
    [(Except.ok true : Except Nat Bool), Except.error 7, Except.ok true, Except.ok true]
  have h2 := (failure_is_captured_in_handle 2 (by decide) ([] : List (Except Nat Bool))).2
    shutdown_actions_before shutdown_state_before rfl
  obtain ⟨q, hq, _, _, hget⟩ := h.1
  refine ⟨⟨q, hq, hget 0 _ rfl, hget 1 _ rfl, hget 2 _ rfl, hget 3 _ rfl⟩, rfl, ?_⟩
  refine (h2.1 0 { future := 0, f := Except.ok true } rfl).2 ?_
  intro hmem
  have he : shutdown_state_before.executed = [] := rfl
  rw [he] at hmem
  simp at hmem

end MetaBalls

